import Mathlib

/-!
The step-execution engine of invoiceradar-plugins.

A shallow embedding of `executor.go`, `plugin.go` and the phase logic of
`main.go`, followed by the properties proved about it.

Conventions of the embedding:

* A Go `string` is a `Str`, a list of characters.  Every string the engine
  handles comes out of a JSON decoder and is therefore valid UTF-8, for which
  substring search over bytes and over code points agree.
* A Go `map` is an association list with pairwise distinct keys.  The order of
  the list is the order in which a `range` loop visits the keys; Go leaves that
  order unspecified, so statements about "every visiting order" quantify over
  the permutations of the list.
* The browser driven through `chromedp` and the wall clock are an external
  collaborator: a `Browser σ` gives, for an arbitrary session state `σ`, the
  reaction of the session to every request the engine can make.  A handler
  returns the executor it leaves behind together with its `error`.
* Log output is not part of the model.
-/

namespace InvoiceRadar

/-- Go `string`. -/
abbrev Str := List Char

/-! ## The parts of Go's `strings` package the engine uses -/

namespace strings

/-- `strings.HasPrefix(s, pre)`: reports whether `s` begins with `pre`. -/
def HasPrefix (s pre : Str) : Bool :=
  pre.isPrefixOf s

/-- `strings.Contains(s, substr)`: reports whether `substr` is within `s`. -/
def Contains : Str → Str → Bool
  | [], substr => substr.isEmpty
  | c :: cs, substr => substr.isPrefixOf (c :: cs) || Contains cs substr

/-- The scan of `strings.Split` for a non-empty separator: the pieces of the
text between the non-overlapping occurrences of `sep`, found left to right.
The first argument counts the characters of a separator still to be skipped. -/
def splitScan (sep : Str) : Nat → Str → List Str
  | _, [] => [[]]
  | skip + 1, _ :: cs => splitScan sep skip cs
  | 0, c :: cs =>
    if sep.isPrefixOf (c :: cs) then
      [] :: splitScan sep (sep.length - 1) cs
    else
      match splitScan sep 0 cs with
      | [] => [[c]]
      | p :: ps => (c :: p) :: ps

/-- `strings.Split(s, sep)`: slices `s` into all substrings separated by `sep`.
With an empty separator the text is split after each character. -/
def Split (s sep : Str) : List Str :=
  if sep.isEmpty then s.map (fun c => [c]) else splitScan sep 0 s

/-- The scan of `strings.ReplaceAll` for a non-empty `old`: every
non-overlapping occurrence of `old`, found left to right, becomes `new`.
The first numeric argument counts the characters of a matched occurrence still
to be skipped. -/
def replaceScan (old new : Str) : Nat → Str → Str
  | _, [] => []
  | skip + 1, _ :: cs => replaceScan old new skip cs
  | 0, c :: cs =>
    if old.isPrefixOf (c :: cs) then
      new ++ replaceScan old new (old.length - 1) cs
    else
      c :: replaceScan old new 0 cs

/-- `strings.ReplaceAll(s, old, new)`: a copy of `s` with all non-overlapping
instances of `old` replaced by `new`.  If `old` is empty, it matches at the
beginning of the string and after each character. -/
def ReplaceAll (s old new : Str) : Str :=
  if old.isEmpty then new ++ s.flatMap (fun c => c :: new)
  else replaceScan old new 0 s

end strings

/-! ## Values and errors -/

/-- A dynamic value held in `Executor.variables` (`interface{}`). -/
inductive Value where
  | str (s : Str)
  | int (n : Int)
  | bool (b : Bool)
  /-- any other dynamic value, carried by its `%v` rendering -/
  | other (rendered : Str)
  deriving DecidableEq, Repr

/-- The text `fmt.Sprintf("%v", value)`. -/
def Value.format : Value → Str
  | .str s => s
  | .int n => (toString n).toList
  | .bool b => if b then "true".toList else "false".toList
  | .other r => r

/-- The `error` values that travel through the engine. -/
inductive GoError where
  /-- an error reported by the browser driver (`chromedp.Run`) -/
  | driver (msg : Str)
  /-- `fmt.Errorf("step %d (%s) failed: %w", i+1, step.Action, err)` -/
  | stepFailed (position : Nat) (action : Str) (cause : GoError)
  /-- `fmt.Errorf("element not found: %s", selector)` -/
  | elementNotFound (selector : Str)
  /-- `fmt.Errorf("URL does not match: expected %s, got %s", expectedURL, currentURL)` -/
  | urlDoesNotMatch (expectedURL currentURL : Str)
  /-- `fmt.Errorf("timeout waiting for URL: %s", expectedURL)` -/
  | urlTimeout (expectedURL : Str)
  deriving DecidableEq, Repr

/-- The message of an error, `err.Error()`. -/
def GoError.Error : GoError → Str
  | .driver msg => msg
  | .stepFailed position action cause =>
    "step ".toList ++ (toString position).toList ++ " (".toList ++ action
      ++ ") failed: ".toList ++ cause.Error
  | .elementNotFound selector => "element not found: ".toList ++ selector
  | .urlDoesNotMatch expectedURL currentURL =>
    "URL does not match: expected ".toList ++ expectedURL ++ ", got ".toList ++ currentURL
  | .urlTimeout expectedURL => "timeout waiting for URL: ".toList ++ expectedURL

/-- The error wrapped with `%w`, `errors.Unwrap(err)`. -/
def GoError.Unwrap : GoError → Option GoError
  | .stepFailed _ _ cause => some cause
  | _ => none

/-! ## Plugin data model (plugin.go) -/

/-- A plugin step (`type Step struct`, plugin.go:40-63).  The fields of type
`interface{}` and `map[string]interface{}` hold untyped JSON that the engine
never reads; they are carried as their JSON text. -/
inductive Step where
  | mk (Action URL Selector Attribute : Str) (Timeout : Int)
      (Variable Script Value Fields : Str)
      (ForEach Then Else : List Step)
      (Document : Str) (Duration : Int)
      (Base64 Transform Config Option Snippet Args Iframe : Str)
      (WaitForNetworkIdle : Bool)

namespace Step

def Action : Step → Str
  | mk a _ _ _ _ _ _ _ _ _ _ _ _ _ _ _ _ _ _ _ _ _ => a

def URL : Step → Str
  | mk _ u _ _ _ _ _ _ _ _ _ _ _ _ _ _ _ _ _ _ _ _ => u

def Selector : Step → Str
  | mk _ _ s _ _ _ _ _ _ _ _ _ _ _ _ _ _ _ _ _ _ _ => s

def Timeout : Step → Int
  | mk _ _ _ _ t _ _ _ _ _ _ _ _ _ _ _ _ _ _ _ _ _ => t

def Script : Step → Str
  | mk _ _ _ _ _ _ s _ _ _ _ _ _ _ _ _ _ _ _ _ _ _ => s

def Value : Step → Str
  | mk _ _ _ _ _ _ _ v _ _ _ _ _ _ _ _ _ _ _ _ _ _ => v

def ForEach : Step → List Step
  | mk _ _ _ _ _ _ _ _ _ f _ _ _ _ _ _ _ _ _ _ _ _ => f

def Then : Step → List Step
  | mk _ _ _ _ _ _ _ _ _ _ t _ _ _ _ _ _ _ _ _ _ _ => t

def Else : Step → List Step
  | mk _ _ _ _ _ _ _ _ _ _ _ e _ _ _ _ _ _ _ _ _ _ => e

def Duration : Step → Int
  | mk _ _ _ _ _ _ _ _ _ _ _ _ _ d _ _ _ _ _ _ _ _ => d

def WaitForNetworkIdle : Step → Bool
  | mk _ _ _ _ _ _ _ _ _ _ _ _ _ _ _ _ _ _ _ _ _ w => w

/-- A step given by its action, URL, selector, script and nested lists, every
other field at its zero value (a Go composite literal naming only these
fields). -/
def lit (action url selector script : Str)
    (thenSteps elseSteps forEach : List Step) : Step :=
  mk action url selector [] 0 [] script [] [] forEach thenSteps elseSteps
    [] 0 [] [] [] [] [] [] [] false

end Step

/-- A plugin (`type Plugin struct`, plugin.go:9-21).  The configuration schema
and the autofill description are untyped for the engine, which never reads
them; they are carried as their JSON text. -/
structure Plugin where
  Schema : Str
  ID : Str
  Name : Str
  Description : Str
  Homepage : Str
  ConfigSchema : Str
  CheckAuth : List Step
  StartAuth : List Step
  GetConfigOpts : List Step
  GetDocuments : List Step
  Autofill : Str

/-! ## The browser session -/

/-- The `chromedp` actions the engine submits. -/
inductive Action where
  | Navigate (url : Str)
  | WaitReady (selector : Str)
  | WaitVisible (selector : Str)
  | Location
  /-- `chromedp.Nodes(selector, &nodes, chromedp.ByQuery)` -/
  | Nodes (selector : Str)
  | Click (selector : Str)
  | SendKeys (selector value : Str)
  | SetValue (selector value : Str)
  | CaptureScreenshot
  /-- `chromedp.Evaluate(script, &result)` with `result` an `interface{}` -/
  | Evaluate (script : Str)
  /-- `chromedp.Evaluate(script, &result)` with `result` a `bool` -/
  | EvaluateBool (script : Str)
  deriving DecidableEq, Repr

/-- What one `chromedp.Run` leaves behind: the returned error and the contents
of the output variables the actions write to. -/
structure Reply where
  err : Option GoError
  /-- the `currentURL` written by `Location` -/
  location : Str
  /-- `len(nodes)` of the slice written by `Nodes` -/
  nodes : Nat
  /-- the `bool` written by `Evaluate` -/
  result : Bool

/-- The external collaborator: a browser session with state `σ` and the clock.
`run deadline actions` is `chromedp.Run(ctx, actions...)`, where `deadline` is
the deadline of `ctx` when it was derived with `context.WithTimeout`.  Times are
nanoseconds.  The two laws say that the clock never runs backwards across a
request and that `time.Sleep(d)` lasts at least `d`. -/
structure Browser (σ : Type) where
  now : σ → Int
  sleep : Int → σ → σ
  run : Option Int → List Action → σ → σ × Reply
  run_monotone : ∀ deadline actions s, now s ≤ now (run deadline actions s).1
  sleep_advances : ∀ d s, now s + d ≤ now (sleep d s)

/-- `time.Millisecond` -/
def Millisecond : Int := 1000000

/-- `time.Second` -/
def Second : Int := 1000 * Millisecond

/-- Two's-complement wrap-around of 64-bit signed arithmetic. -/
def wrapInt64 (x : Int) : Int :=
  (x + 2 ^ 63) % 2 ^ 64 - 2 ^ 63

/-- `time.Duration(ms) * time.Millisecond` -/
def durationOfMillis (ms : Int) : Int :=
  wrapInt64 (ms * Millisecond)

/-! ## The executor (executor.go) -/

/-- The state of an `Executor`: the browser session behind `ctx`, the runtime
variables and the static configuration. -/
structure Executor (σ : Type) where
  ctx : σ
  «variables» : List (Str × Value)
  config : List (Str × Str)

/-- `Executor.interpolate` (executor.go:48-62): replaces the `{{config.key}}`
placeholders, one configuration key after the other, and then the `{{key}}`
placeholders, one variable after the other. -/
def Executor.interpolate {σ : Type} (e : Executor σ) (text : Str) : Str :=
  let result := e.config.foldl
    (fun result kv =>
      strings.ReplaceAll result ("\x7b\x7bconfig.".toList ++ kv.1 ++ "\x7d\x7d".toList) kv.2)
    text
  e.variables.foldl
    (fun result kv =>
      strings.ReplaceAll result ("\x7b\x7b".toList ++ kv.1 ++ "\x7d\x7d".toList) kv.2.format)
    result

/-- What a handler returns: the executor afterwards and the `error`
(`none` for `nil`). -/
abbrev Outcome (σ : Type) := Executor σ × Option GoError

section Handlers

variable {σ : Type} (B : Browser σ)

/-- `Executor.navigate` (executor.go:119-132). -/
def navigate (step : Step) (e : Executor σ) : Outcome σ :=
  let url := e.interpolate step.URL
  let tasks := [Action.Navigate url]
  let tasks :=
    if step.WaitForNetworkIdle then tasks ++ [Action.WaitReady "body".toList] else tasks
  let r := B.run none tasks e.ctx
  ({ e with ctx := r.1 }, r.2.err)

/-- `Executor.waitForElement` (executor.go:134-145). -/
def waitForElement (step : Step) (e : Executor σ) : Outcome σ :=
  let selector := e.interpolate step.Selector
  let timeout := durationOfMillis step.Timeout
  let timeout := if timeout = 0 then 30 * Second else timeout
  let r := B.run (some (B.now e.ctx + timeout)) [Action.WaitVisible selector] e.ctx
  ({ e with ctx := r.1 }, r.2.err)

/-- The polling loop of `Executor.waitForURL` (executor.go:159-174), from the
test `time.Since(start) < timeout` on.  `time.Since` saturates only beyond the
range of a `Duration`, which no `timeout` exceeds, so the plain difference
decides the same test. -/
def waitForURL.poll (expectedURL : Str) (deadline start timeout : Int) (s : σ) :
    σ × Option GoError :=
  if B.now s - start < timeout then
    let r := B.run (some deadline) [Action.Location] s
    let currentURL := r.2.location
    if r.2.err.isNone then
      if strings.Contains expectedURL "**".toList then
        let pre := (strings.Split expectedURL "**".toList).headD []
        if strings.HasPrefix currentURL pre then
          (r.1, none)
        else
          waitForURL.poll expectedURL deadline start timeout (B.sleep (500 * Millisecond) r.1)
      else if strings.Contains currentURL expectedURL then
        (r.1, none)
      else
        waitForURL.poll expectedURL deadline start timeout (B.sleep (500 * Millisecond) r.1)
    else
      waitForURL.poll expectedURL deadline start timeout (B.sleep (500 * Millisecond) r.1)
  else
    (s, some (GoError.urlTimeout expectedURL))
termination_by (start + timeout - B.now s).toNat
decreasing_by
  all_goals
    have h1 := B.run_monotone (some deadline) [Action.Location] s
    have h2 := B.sleep_advances (500 * Millisecond) (B.run (some deadline) [Action.Location] s).1
    simp only [Millisecond] at h2 ⊢
    omega

/-- `Executor.waitForURL` (executor.go:147-175). -/
def waitForURL (step : Step) (e : Executor σ) : Outcome σ :=
  let expectedURL := e.interpolate step.URL
  let timeout := durationOfMillis step.Timeout
  let timeout := if timeout = 0 then 30 * Second else timeout
  let deadline := B.now e.ctx + timeout
  let start := B.now e.ctx
  let r := waitForURL.poll B expectedURL deadline start timeout e.ctx
  ({ e with ctx := r.1 }, r.2)

/-- `Executor.waitForNavigation` (executor.go:177-185). -/
def waitForNavigation (step : Step) (e : Executor σ) : Outcome σ :=
  let timeout := durationOfMillis step.Timeout
  let timeout := if timeout = 0 then 10 * Second else timeout
  ({ e with ctx := B.sleep timeout e.ctx }, none)

/-- `Executor.waitForNetworkIdle` (executor.go:187-195); the computed timeout
is not used by the source. -/
def waitForNetworkIdle (_step : Step) (e : Executor σ) : Outcome σ :=
  ({ e with ctx := B.sleep (2 * Second) e.ctx }, none)

/-- `Executor.checkElementExists` (executor.go:198-209). -/
def checkElementExists (step : Step) (e : Executor σ) : Outcome σ :=
  let selector := e.interpolate step.Selector
  let r := B.run none [Action.Nodes selector] e.ctx
  if r.2.err.isSome || r.2.nodes = 0 then
    ({ e with ctx := r.1 }, some (GoError.elementNotFound selector))
  else
    ({ e with ctx := r.1 }, none)

/-- `Executor.checkURL` (executor.go:211-232). -/
def checkURL (step : Step) (e : Executor σ) : Outcome σ :=
  let expectedURL := e.interpolate step.URL
  let r := B.run none [Action.Location] e.ctx
  let currentURL := r.2.location
  match r.2.err with
  | some err => ({ e with ctx := r.1 }, some err)
  | none =>
    if strings.Contains expectedURL "**".toList then
      let pre := (strings.Split expectedURL "**".toList).headD []
      if !strings.HasPrefix currentURL pre then
        ({ e with ctx := r.1 }, some (GoError.urlDoesNotMatch expectedURL currentURL))
      else
        ({ e with ctx := r.1 }, none)
    else if !strings.Contains currentURL expectedURL then
      ({ e with ctx := r.1 }, some (GoError.urlDoesNotMatch expectedURL currentURL))
    else
      ({ e with ctx := r.1 }, none)

/-- `Executor.click` (executor.go:235-239). -/
def click (step : Step) (e : Executor σ) : Outcome σ :=
  let selector := e.interpolate step.Selector
  let r := B.run none [Action.Click selector] e.ctx
  ({ e with ctx := r.1 }, r.2.err)

/-- `Executor.typeText` (executor.go:241-246). -/
def typeText (step : Step) (e : Executor σ) : Outcome σ :=
  let selector := e.interpolate step.Selector
  let value := e.interpolate step.Value
  let r := B.run none [Action.SendKeys selector value] e.ctx
  ({ e with ctx := r.1 }, r.2.err)

/-- `Executor.dropdownSelect` (executor.go:248-253). -/
def dropdownSelect (step : Step) (e : Executor σ) : Outcome σ :=
  let selector := e.interpolate step.Selector
  let value := e.interpolate step.Value
  let r := B.run none [Action.SetValue selector value] e.ctx
  ({ e with ctx := r.1 }, r.2.err)

/-- `Executor.extract` (executor.go:256-260): a placeholder that records
nothing. -/
def extract (_step : Step) (e : Executor σ) : Outcome σ :=
  (e, none)

/-- `Executor.downloadPdf` (executor.go:275-280): a placeholder. -/
def downloadPdf (_step : Step) (e : Executor σ) : Outcome σ :=
  (e, none)

/-- `Executor.printPdf` (executor.go:282-292). -/
def printPdf (_step : Step) (e : Executor σ) : Outcome σ :=
  let r := B.run none [Action.CaptureScreenshot] e.ctx
  match r.2.err with
  | some err => ({ e with ctx := r.1 }, some err)
  | none => ({ e with ctx := r.1 }, none)

/-- `Executor.sleep` (executor.go:295-300). -/
def sleep (step : Step) (e : Executor σ) : Outcome σ :=
  let duration := durationOfMillis step.Duration
  ({ e with ctx := B.sleep duration e.ctx }, none)

/-- `Executor.runJs` (executor.go:302-307). -/
def runJs (step : Step) (e : Executor σ) : Outcome σ :=
  let script := e.interpolate step.Script
  let r := B.run none [Action.Evaluate script] e.ctx
  ({ e with ctx := r.1 }, r.2.err)

mutual

/-- The loop of `Executor.ExecuteSteps` (executor.go:66-72) from loop index `i`
on. -/
def ExecuteStepsFrom (i : Nat) : List Step → Executor σ → Outcome σ
  | [], e => (e, none)
  | step :: rest, e =>
    match executeStep step e with
    | (e1, some err) => (e1, some (GoError.stepFailed (i + 1) step.Action err))
    | (e1, none) => ExecuteStepsFrom (i + 1) rest e1

/-- `Executor.executeStep` (executor.go:76-116).  The two handlers that recurse
into a nested step list, `extractAll` (executor.go:262-272) and `ifCondition`
(executor.go:309-327), are unfolded in place. -/
def executeStep : Step → Executor σ → Outcome σ
  | .mk action url selector attr timeout varName script value fields
      forEach thenSteps elseSteps document duration base64 transform cfg opt
      snippet args iframe waitIdle, e =>
    let step := Step.mk action url selector attr timeout varName script value fields
      forEach thenSteps elseSteps document duration base64 transform cfg opt
      snippet args iframe waitIdle
    if action = "navigate".toList then navigate B step e
    else if action = "waitForElement".toList then waitForElement B step e
    else if action = "waitForURL".toList then waitForURL B step e
    else if action = "waitForNavigation".toList then waitForNavigation B step e
    else if action = "waitForNetworkIdle".toList then waitForNetworkIdle B step e
    else if action = "checkElementExists".toList then checkElementExists B step e
    else if action = "checkURL".toList then checkURL B step e
    else if action = "click".toList then click B step e
    else if action = "type".toList then typeText B step e
    else if action = "dropdownSelect".toList then dropdownSelect B step e
    else if action = "extract".toList then extract step e
    else if action = "extractAll".toList then
      if forEach.length > 0 then ExecuteStepsFrom 0 forEach e else (e, none)
    else if action = "downloadPdf".toList then downloadPdf step e
    else if action = "printPdf".toList then printPdf B step e
    else if action = "sleep".toList then sleep B step e
    else if action = "runJs".toList then runJs B step e
    else if action = "if".toList then
      let r := B.run none [Action.EvaluateBool (e.interpolate script)] e.ctx
      let result := r.2.result
      match r.2.err with
      | some err => ({ e with ctx := r.1 }, some err)
      | none =>
        if result && thenSteps.length > 0 then
          ExecuteStepsFrom 0 thenSteps { e with ctx := r.1 }
        else if !result && elseSteps.length > 0 then
          ExecuteStepsFrom 0 elseSteps { e with ctx := r.1 }
        else
          ({ e with ctx := r.1 }, none)
    else (e, none)

end

/-- `Executor.ExecuteSteps` (executor.go:65-73). -/
def ExecuteSteps (steps : List Step) (e : Executor σ) : Outcome σ :=
  ExecuteStepsFrom B 0 steps e

/-- `Executor.extractAll` (executor.go:262-272). -/
def extractAll (step : Step) (e : Executor σ) : Outcome σ :=
  if step.ForEach.length > 0 then ExecuteSteps B step.ForEach e else (e, none)

/-- `Executor.ifCondition` (executor.go:309-327). -/
def ifCondition (step : Step) (e : Executor σ) : Outcome σ :=
  let script := e.interpolate step.Script
  let r := B.run none [Action.EvaluateBool script] e.ctx
  let result := r.2.result
  match r.2.err with
  | some err => ({ e with ctx := r.1 }, some err)
  | none =>
    if result && step.Then.length > 0 then
      ExecuteSteps B step.Then { e with ctx := r.1 }
    else if !result && step.Else.length > 0 then
      ExecuteSteps B step.Else { e with ctx := r.1 }
    else
      ({ e with ctx := r.1 }, none)

end Handlers

/-! ## The phases of a run (main.go) -/

/-- How a run ends: `main` returns, or one of its two `log.Fatalf` calls ends
the process. -/
inductive Exit where
  | completed
  /-- `log.Fatalf("Authentication failed: %v", err)` -/
  | authenticationFailed (err : GoError)
  /-- `log.Fatalf("Failed to fetch documents: %v", err)` -/
  | fetchFailed (err : GoError)
  deriving DecidableEq, Repr

/-- The phases of `main` (main.go:59-95), once the plugin and the configuration
are loaded and the executor is built. -/
def main {σ : Type} (B : Browser σ) (plugin : Plugin) (checkAuthOnly : Bool)
    (executor : Executor σ) : Executor σ × Exit :=
  let afterAuth : Executor σ × Option Exit :=
    if plugin.CheckAuth.length > 0 then
      match ExecuteSteps B plugin.CheckAuth executor with
      | (e1, some _) =>
        if !checkAuthOnly then
          if plugin.StartAuth.length > 0 then
            match ExecuteSteps B plugin.StartAuth e1 with
            | (e2, some err) => (e2, some (Exit.authenticationFailed err))
            | (e2, none) => (e2, none)
          else (e1, none)
        else (e1, none)
      | (e1, none) => (e1, none)
    else (executor, none)
  match afterAuth with
  | (e, some fatal) => (e, fatal)
  | (e, none) =>
    if checkAuthOnly then (e, Exit.completed)
    else if plugin.GetDocuments.length > 0 then
      match ExecuteSteps B plugin.GetDocuments e with
      | (e3, some err) => (e3, Exit.fetchFailed err)
      | (e3, none) => (e3, Exit.completed)
    else (e, Exit.completed)

/-! ## A scripted session for worked examples -/

/-- A browser session that keeps a journal of the requests it receives.  A
request fails when `failing` says so; `Location` reports `url`, `Nodes` finds
one node and a boolean script evaluates to `answer`.  The state is the clock
and the journal. -/
def journal (failing : List Action → Bool) (url : Str) (answer : Bool) :
    Browser (Int × List (List Action)) where
  now s := s.1
  sleep d s := (if 0 < d then s.1 + d else s.1, s.2)
  run _ actions s :=
    ((s.1, s.2 ++ [actions]),
      { err := if failing actions then some (GoError.driver "refused".toList) else none,
        location := url, nodes := 1, result := answer })
  run_monotone := by intro _ _ s; exact le_refl _
  sleep_advances := by
    intro d s
    show s.1 + d ≤ (if 0 < d then s.1 + d else s.1)
    split <;> omega

/-- The executor `NewExecutor(config)` over a fresh journal session. -/
def newExecutor (config : List (Str × Str)) : Executor (Int × List (List Action)) :=
  { ctx := (0, []), «variables» := [], config := config }

/-- The step `{Action: "click", Selector: selector}`. -/
def clickStep (selector : Str) : Step :=
  Step.lit "click".toList [] selector [] [] [] []

/-- A journal session in which exactly the click on `#b` is refused. -/
def refusesB : Browser (Int × List (List Action)) :=
  journal (fun actions => actions = [Action.Click "#b".toList]) [] false

/-- The step `{Action: "if", Script: "ready", Then: [click #a], Else: [click #b]}`. -/
def ifStep : Step :=
  Step.lit "if".toList [] [] "ready".toList [clickStep "#a".toList] [clickStep "#b".toList] []

/-- A journal session that refuses nothing and in which a boolean script
evaluates to `answer`. -/
def answers (answer : Bool) : Browser (Int × List (List Action)) :=
  journal (fun _ => false) [] answer

/-- The step `{Action: "checkURL", URL: url}`. -/
def checkURLStep (url : Str) : Step :=
  Step.lit "checkURL".toList url [] [] [] [] []

/-- A journal session that refuses nothing and whose page is at `url`. -/
def located (url : Str) : Browser (Int × List (List Action)) :=
  journal (fun _ => false) url false

/-- A plugin whose `checkAuth` expects the login page, with one step in each
of the two other phases. -/
def loginPlugin : Plugin :=
  { Schema := [], ID := "demo".toList, Name := "Demo".toList, Description := [],
    Homepage := [], ConfigSchema := [],
    CheckAuth := [checkURLStep "/login".toList],
    StartAuth := [clickStep "#a".toList],
    GetConfigOpts := [],
    GetDocuments := [clickStep "#c".toList],
    Autofill := [] }

/-! ## Vocabulary of the statements -/

/-- A text without the characters `{` and `}`. -/
def BraceFree (s : Str) : Prop :=
  '{' ∉ s ∧ '}' ∉ s

instance (s : Str) : Decidable (BraceFree s) :=
  inferInstanceAs (Decidable (_ ∧ _))

/-- The placeholder `{{name}}`. -/
def placeholder (name : Str) : Str :=
  "\x7b\x7b".toList ++ name ++ "\x7d\x7d".toList

/-- The URL matching rule in the words of the specification: the expected
URL `x` contains `**` and the current URL `c` starts with the text of `x` before
the first `**`, or `x` does not contain `**` and occurs in `c`. -/
def URLMatchRule (x c : Str) : Prop :=
  ("**".toList <:+: x ∧
    ∃ p q, x = p ++ "**".toList ++ q ∧ ¬ "**".toList <:+: p ++ "*".toList ∧ p <+: c) ∨
  (¬ "**".toList <:+: x ∧ x <:+: c)

/-- A piece of a template: literal text, or the placeholder of a name. -/
inductive Piece where
  | lit (text : Str)
  | hole (name : Str)
  deriving DecidableEq, Repr

/-- The text of a piece. -/
def Piece.render : Piece → Str
  | .lit text => text
  | .hole name => placeholder name

/-- The text of a template, its pieces one after the other. -/
def renderPieces : List Piece → Str
  | [] => []
  | p :: ps => p.render ++ renderPieces ps

/-- A piece whose literal text, or whose name, is brace-free. -/
def Piece.Plain : Piece → Prop
  | .lit text => BraceFree text
  | .hole name => BraceFree name

instance (p : Piece) : Decidable p.Plain :=
  match p with
  | .lit text => inferInstanceAs (Decidable (BraceFree text))
  | .hole name => inferInstanceAs (Decidable (BraceFree name))

/-- The piece after the placeholder of `name` is filled with `value`. -/
def Piece.fill (name value : Str) : Piece → Piece
  | .lit text => .lit text
  | .hole n => if n = name then .lit value else .hole n

/-- The template after the configuration keys have been visited in the order
of `config`. -/
def fillConfig (config : List (Str × Str)) (ps : List Piece) : List Piece :=
  config.foldl (fun ps kv => ps.map (Piece.fill ("config.".toList ++ kv.1) kv.2)) ps

/-- The template after the variables have been visited in the order of
`vars`. -/
def fillVariables (vars : List (Str × Value)) (ps : List Piece) : List Piece :=
  vars.foldl (fun ps kv => ps.map (Piece.fill kv.1 kv.2.format)) ps

/-- The seventeen action kinds `executeStep` dispatches on. -/
def recognisedActions : List Str :=
  ["navigate".toList, "waitForElement".toList, "waitForURL".toList,
    "waitForNavigation".toList, "waitForNetworkIdle".toList, "checkElementExists".toList,
    "checkURL".toList, "click".toList, "type".toList, "dropdownSelect".toList,
    "extract".toList, "extractAll".toList, "downloadPdf".toList, "printPdf".toList,
    "sleep".toList, "runJs".toList, "if".toList]

/-- The executor reached by executing the steps one after the other, each
exactly once and each from where the previous one left off. -/
def stateAfter {σ : Type} (B : Browser σ) (steps : List Step) (e : Executor σ) : Executor σ :=
  steps.foldl (fun e step => (executeStep B step e).1) e

/-- Every step of the list returns no error when the steps are executed one
after the other. -/
def RunsClean {σ : Type} (B : Browser σ) : List Step → Executor σ → Prop
  | [], _ => True
  | step :: rest, e =>
    (executeStep B step e).2 = none ∧ RunsClean B rest (executeStep B step e).1

/-- The executor `e1` holds the configuration and the variables of `e`; only
the browser session may differ. -/
def SameContext {σ : Type} (e e1 : Executor σ) : Prop :=
  e1.config = e.config ∧ e1.variables = e.variables

/-! ## Properties of the string operations -/

namespace strings

theorem HasPrefix_iff (s pre : Str) : HasPrefix s pre = true ↔ pre <+: s := by
  simp [HasPrefix]

theorem Contains_iff (s substr : Str) : Contains s substr = true ↔ substr <:+: s := by
  induction s with
  | nil => simp [Contains]
  | cons c cs ih =>
    rw [Contains, Bool.or_eq_true, ih, List.infix_cons_iff]
    simp

theorem replaceScan_skip (old new : Str) (k : Nat) (s : Str) :
    replaceScan old new k s = replaceScan old new 0 (s.drop k) := by
  induction k generalizing s with
  | zero => simp
  | succ k ih =>
    cases s with
    | nil => simp [replaceScan]
    | cons c cs => simp [replaceScan, ih cs]

theorem replaceScan_absent (old new s : Str) (h : ¬ old <:+: s) :
    replaceScan old new 0 s = s := by
  induction s with
  | nil => simp [replaceScan]
  | cons c cs ih =>
    have h1 : ¬ old <+: c :: cs := fun hp => h hp.isInfix
    have h2 : ¬ old <:+: cs := fun hi => h (List.infix_cons hi)
    simp [replaceScan, h1, ih h2]

/-- A text without any occurrence of `old` is returned as it is. -/
theorem ReplaceAll_absent (s old new : Str) (h : ¬ old <:+: s) :
    ReplaceAll s old new = s := by
  have hne : old ≠ [] := by
    rintro rfl
    exact h List.nil_infix
  simp [ReplaceAll, hne, replaceScan_absent old new s h]

/-- A text that is exactly one occurrence of `old` becomes `new`. -/
theorem ReplaceAll_self (old new : Str) (hne : old ≠ []) :
    ReplaceAll old old new = new := by
  cases old with
  | nil => exact absurd rfl hne
  | cons c cs =>
    simp [ReplaceAll, replaceScan]
    rw [replaceScan_skip]
    simp [replaceScan]

end strings

/-! ## Placeholders -/

theorem configPattern_eq (k : Str) :
    "\x7b\x7bconfig.".toList ++ k ++ "\x7d\x7d".toList = placeholder ("config.".toList ++ k) := by
  simp [placeholder]

theorem openBraces_prefix_placeholder (m : Str) : "\x7b\x7b".toList <+: placeholder m := by
  unfold placeholder
  rw [List.append_assoc]
  exact List.prefix_append _ _

theorem placeholder_ne_nil (m : Str) : placeholder m ≠ [] := by
  simp [placeholder]

/-- A placeholder does not occur in a text without `{{`. -/
theorem placeholder_absent_of_no_open (m t : Str) (h : ¬ "\x7b\x7b".toList <:+: t) :
    ¬ placeholder m <:+: t :=
  fun hi => h ((openBraces_prefix_placeholder m).isInfix.trans hi)

theorem no_open_of_braceFree (t : Str) (h : BraceFree t) : ¬ "\x7b\x7b".toList <:+: t := by
  intro hi
  exact h.1 (hi.subset (by simp))

/-- Up to the closing braces, a name without `}` is matched only by itself. -/
theorem closing_braces (m n rest : Str) (hn : '}' ∉ n) (hm : '}' ∉ m)
    (h : m ++ "\x7d\x7d".toList <+: n ++ "\x7d\x7d".toList ++ rest) : m = n := by
  induction m generalizing n with
  | nil =>
    cases n with
    | nil => rfl
    | cons c n =>
      exfalso
      have hc := List.cons_prefix_cons.mp (by simpa using h)
      exact hn (by simp [← hc.1])
  | cons d m ih =>
    cases n with
    | nil =>
      exfalso
      have hc := List.cons_prefix_cons.mp (by simpa using h)
      exact hm (by simp [hc.1])
    | cons c n =>
      have hc := List.cons_prefix_cons.mp (by simpa using h)
      have := ih n (fun hmem => hn (List.mem_cons_of_mem _ hmem))
        (fun hmem => hm (List.mem_cons_of_mem _ hmem)) (by simpa using hc.2)
      rw [hc.1, this]

/-- The same, when the matched name may be anything but the text ends with the
placeholder. -/
theorem closing_braces_exact (m n : Str) (hn : '}' ∉ n)
    (h : m ++ "\x7d\x7d".toList <+: n ++ "\x7d\x7d".toList) : m = n := by
  induction m generalizing n with
  | nil =>
    cases n with
    | nil => rfl
    | cons c n =>
      exfalso
      have hc := List.cons_prefix_cons.mp (by simpa using h)
      exact hn (by simp [← hc.1])
  | cons d m ih =>
    cases n with
    | nil =>
      exfalso
      have hl := h.length_le
      simp at hl
    | cons c n =>
      have hc := List.cons_prefix_cons.mp (by simpa using h)
      have := ih n (fun hmem => hn (List.mem_cons_of_mem _ hmem)) (by simpa using hc.2)
      rw [hc.1, this]

/-- In the placeholder of a brace-free name, only that placeholder occurs. -/
theorem placeholder_infix_placeholder (m n : Str) (hn : BraceFree n)
    (h : placeholder m <:+: placeholder n) : m = n := by
  have hno : '{' ∉ n ++ "\x7d\x7d".toList := by
    simp only [List.mem_append, not_or]
    exact ⟨hn.1, by decide⟩
  have e1 : placeholder n = '{' :: '{' :: (n ++ "\x7d\x7d".toList) := by simp [placeholder]
  have e2 : placeholder m = '{' :: '{' :: (m ++ "\x7d\x7d".toList) := by simp [placeholder]
  rw [e1, List.infix_cons_iff] at h
  rcases h with h | h
  · rw [e2] at h
    have h1 := (List.cons_prefix_cons.mp h).2
    have h2 := (List.cons_prefix_cons.mp h1).2
    exact closing_braces_exact m n hn.2 h2
  · rw [List.infix_cons_iff] at h
    rcases h with h | h
    · exfalso
      rw [e2] at h
      have h1 := (List.cons_prefix_cons.mp h).2
      exact hno (h1.subset (by simp))
    · exfalso
      rw [e2] at h
      exact hno (h.subset (by simp))

/-! ## Interpolation -/

theorem foldl_fixed {α β : Type} (f : β → α → β) (l : List α) (b : β)
    (h : ∀ a ∈ l, f b a = b) : l.foldl f b = b := by
  induction l with
  | nil => rfl
  | cons a l ih =>
    rw [List.foldl_cons, h a (List.mem_cons_self _ _)]
    exact ih (fun x hx => h x (List.mem_cons_of_mem _ hx))

/-- A text in which no placeholder of the two maps occurs is left alone. -/
theorem interpolate_fixed {σ : Type} (e : Executor σ) (t : Str)
    (hc : ∀ kv ∈ e.config, ¬ placeholder ("config.".toList ++ kv.1) <:+: t)
    (hv : ∀ kv ∈ e.variables, ¬ placeholder kv.1 <:+: t) :
    e.interpolate t = t := by
  unfold Executor.interpolate
  have h1 : e.config.foldl
      (fun result kv =>
        strings.ReplaceAll result ("\x7b\x7bconfig.".toList ++ kv.1 ++ "\x7d\x7d".toList) kv.2) t = t := by
    apply foldl_fixed
    intro kv hkv
    show strings.ReplaceAll t ("\x7b\x7bconfig.".toList ++ kv.1 ++ "\x7d\x7d".toList) kv.2 = t
    rw [configPattern_eq]
    exact strings.ReplaceAll_absent _ _ _ (hc kv hkv)
  simp only [h1]
  apply foldl_fixed
  intro kv hkv
  exact strings.ReplaceAll_absent _ _ _ (hv kv hkv)

/-- C6: `interpolate` is the identity on placeholder-free text: a text in which
`{{` does not occur is returned unchanged, whatever the configuration and the
variables hold and in whatever order their keys are visited. -/
theorem interpolate_placeholder_free {σ : Type} (e : Executor σ) (t : Str)
    (h : ¬ "\x7b\x7b".toList <:+: t) : e.interpolate t = t :=
  interpolate_fixed e t
    (fun _ _ => placeholder_absent_of_no_open _ t h)
    (fun _ _ => placeholder_absent_of_no_open _ t h)

theorem interpolate_placeholder_free_witness :
    ¬ "\x7b\x7b".toList <:+: "https://example.com".toList ∧
    (Executor.mk () [("invoice".toList, Value.str "INV-001".toList)]
        [("region".toList, "eu".toList), ("teamId".toList, "12345".toList)]).interpolate
      "https://example.com".toList = "https://example.com".toList :=
  ⟨by decide, interpolate_placeholder_free _ _ (by decide)⟩

/-- C5: an unresolved placeholder is left verbatim: for a brace-free name `n`
that is no variable key and is not `config.k` for a configuration key `k`,
`interpolate` returns `{{n}}` for `{{n}}`, for every configuration and every
variables map in every visiting order. -/
theorem interpolate_unresolved {σ : Type} (e : Executor σ) (n : Str) (hn : BraceFree n)
    (hv : ∀ kv ∈ e.variables, kv.1 ≠ n)
    (hc : ∀ kv ∈ e.config, "config.".toList ++ kv.1 ≠ n) :
    e.interpolate ("\x7b\x7b".toList ++ n ++ "\x7d\x7d".toList) = "\x7b\x7b".toList ++ n ++ "\x7d\x7d".toList :=
  interpolate_fixed e (placeholder n)
    (fun kv hkv hi => hc kv hkv (placeholder_infix_placeholder _ n hn hi))
    (fun kv hkv hi => hv kv hkv (placeholder_infix_placeholder _ n hn hi))

theorem interpolate_unresolved_witness :
    (Executor.mk () [("invoice".toList, Value.str "INV-001".toList)]
        [("region".toList, "eu".toList)]).interpolate "\x7b\x7bmissing\x7d\x7d".toList
      = "\x7b\x7bmissing\x7d\x7d".toList :=
  interpolate_unresolved _ "missing".toList (by decide) (by decide) (by decide)

theorem perm_pair {α : Type} {l : List α} {a b : α} (h : l.Perm [a, b]) :
    l = [a, b] ∨ l = [b, a] := by
  have hl := h.length_eq
  match l, hl with
  | [x, y], _ =>
    have hx : x ∈ [a, b] := h.subset (List.mem_cons_self _ _)
    simp only [List.mem_cons, List.mem_singleton, List.not_mem_nil, or_false] at hx
    rcases hx with rfl | rfl
    · left
      have h1 := (List.perm_cons x).mp h
      rw [List.perm_singleton.mp h1]
    · right
      have h1 : [x, y].Perm [x, a] := h.trans (List.Perm.swap x a [])
      have h2 := (List.perm_cons x).mp h1
      rw [List.perm_singleton.mp h2]

theorem placeholder_config_absent (k : Str) :
    ¬ placeholder ("config.".toList ++ k) <:+: placeholder k := by
  intro h
  have hl := h.length_le
  simp [placeholder] at hl
  omega

/-- C4: configuration substitution precedes variable substitution and the two
namespaces do not collide: with configuration `{k -> v}` and variables
`{k -> w, config.k -> u}` in either visiting order, where `v` and the text of
`w` are brace-free, `{{config.k}}` becomes `v` and `{{k}}` becomes the text of
`w`. -/
theorem interpolate_config_before_variables {σ : Type} (e : Executor σ) (k v : Str)
    (w u : Value) (hv : BraceFree v) (hw : BraceFree w.format)
    (hcfg : e.config = [(k, v)])
    (hvars : e.variables.Perm [(k, w), ("config.".toList ++ k, u)]) :
    e.interpolate ("\x7b\x7bconfig.".toList ++ k ++ "\x7d\x7d".toList) = v ∧
    e.interpolate ("\x7b\x7b".toList ++ k ++ "\x7d\x7d".toList) = w.format := by
  have hvno : ∀ m, ¬ placeholder m <:+: v := fun m =>
    placeholder_absent_of_no_open m v (no_open_of_braceFree v hv)
  have hwno : ∀ m, ¬ placeholder m <:+: w.format := fun m =>
    placeholder_absent_of_no_open m _ (no_open_of_braceFree _ hw)
  have hself : ∀ x : Str, strings.ReplaceAll (placeholder k) (placeholder k) x = x := fun x =>
    strings.ReplaceAll_self _ x (placeholder_ne_nil k)
  have hlong : ∀ x : Str, strings.ReplaceAll (placeholder k)
      (placeholder ("config.".toList ++ k)) x = placeholder k := fun x =>
    strings.ReplaceAll_absent _ _ _ (placeholder_config_absent k)
  have hcself : ∀ x : Str, strings.ReplaceAll (placeholder ("config.".toList ++ k))
      (placeholder ("config.".toList ++ k)) x = x := fun x =>
    strings.ReplaceAll_self _ x (placeholder_ne_nil _)
  have hvfix : ∀ m x, strings.ReplaceAll v (placeholder m) x = v := fun m x =>
    strings.ReplaceAll_absent _ _ _ (hvno m)
  have hwfix : ∀ m x, strings.ReplaceAll w.format (placeholder m) x = w.format := fun m x =>
    strings.ReplaceAll_absent _ _ _ (hwno m)
  have e1 : ("\x7b\x7bconfig.".toList ++ k ++ "\x7d\x7d".toList) = placeholder ("config.".toList ++ k) :=
    configPattern_eq k
  have e2 : ("\x7b\x7b".toList ++ k ++ "\x7d\x7d".toList) = placeholder k := rfl
  have e3 : ∀ m : Str, ("\x7b\x7b".toList ++ m ++ "\x7d\x7d".toList) = placeholder m := fun _ => rfl
  rcases perm_pair hvars with h | h
  · constructor
    · simp only [Executor.interpolate, hcfg, h, List.foldl_cons, List.foldl_nil, e1, e3,
        hcself, hvfix]
    · simp only [Executor.interpolate, hcfg, h, List.foldl_cons, List.foldl_nil, e1, e3,
        hlong, hself, hwfix]
  · constructor
    · simp only [Executor.interpolate, hcfg, h, List.foldl_cons, List.foldl_nil, e1, e3,
        hcself, hvfix]
    · simp only [Executor.interpolate, hcfg, h, List.foldl_cons, List.foldl_nil, e1, e3,
        hlong, hself, hwfix]

theorem interpolate_config_before_variables_witness :
    (Executor.mk () [("region".toList, Value.str "usa".toList),
        ("config.region".toList, Value.str "asia".toList)]
        [("region".toList, "eu".toList)]).interpolate "\x7b\x7bconfig.region\x7d\x7d".toList
      = "eu".toList ∧
    (Executor.mk () [("region".toList, Value.str "usa".toList),
        ("config.region".toList, Value.str "asia".toList)]
        [("region".toList, "eu".toList)]).interpolate "\x7b\x7bregion\x7d\x7d".toList
      = "usa".toList :=
  interpolate_config_before_variables _ "region".toList "eu".toList
    (Value.str "usa".toList) (Value.str "asia".toList) (by decide) (by decide) rfl
    (List.Perm.refl _)

/-! ## Step sequences -/

theorem ExecuteStepsFrom_nil {σ : Type} (B : Browser σ) (i : Nat) (e : Executor σ) :
    ExecuteStepsFrom B i [] e = (e, none) := by
  simp [ExecuteStepsFrom]

theorem ExecuteStepsFrom_cons_error {σ : Type} (B : Browser σ) (i : Nat) (step : Step)
    (rest : List Step) (e : Executor σ) (err : GoError)
    (h : (executeStep B step e).2 = some err) :
    ExecuteStepsFrom B i (step :: rest) e
      = ((executeStep B step e).1, some (GoError.stepFailed (i + 1) step.Action err)) := by
  rw [ExecuteStepsFrom]
  rcases hr : executeStep B step e with ⟨e1, r⟩
  rw [hr] at h
  simp only at h
  subst h
  rfl

theorem ExecuteStepsFrom_cons_ok {σ : Type} (B : Browser σ) (i : Nat) (step : Step)
    (rest : List Step) (e : Executor σ) (h : (executeStep B step e).2 = none) :
    ExecuteStepsFrom B i (step :: rest) e
      = ExecuteStepsFrom B (i + 1) rest (executeStep B step e).1 := by
  rw [ExecuteStepsFrom]
  rcases hr : executeStep B step e with ⟨e1, r⟩
  rw [hr] at h
  simp only at h
  subst h
  rfl

theorem ExecuteStepsFrom_first_failure {σ : Type} (B : Browser σ) (pre : List Step)
    (step : Step) (post : List Step) (i : Nat) (e : Executor σ) (err : GoError)
    (hpre : RunsClean B pre e)
    (hfail : (executeStep B step (stateAfter B pre e)).2 = some err) :
    ExecuteStepsFrom B i (pre ++ step :: post) e
      = ((executeStep B step (stateAfter B pre e)).1,
          some (GoError.stepFailed (i + pre.length + 1) step.Action err)) := by
  induction pre generalizing i e with
  | nil =>
    simpa [stateAfter] using ExecuteStepsFrom_cons_error B i step post e err hfail
  | cons s pre ih =>
    obtain ⟨h1, h2⟩ := hpre
    rw [List.cons_append, ExecuteStepsFrom_cons_ok B i s _ e h1]
    have := ih (i + 1) (executeStep B s e).1 h2 hfail
    rw [this]
    simp only [stateAfter, List.foldl_cons, List.length_cons]
    congr 3
    omega

/-- C10: executing the empty step list succeeds and changes nothing: the
executor comes back as it was, browser session included, for every browser. -/
theorem ExecuteSteps_nil {σ : Type} (B : Browser σ) (e : Executor σ) :
    ExecuteSteps B [] e = (e, none) :=
  ExecuteStepsFrom_nil B 0 e

/-- C1: when the step at 1-based position `i` is the first to return an error
`err`, `ExecuteSteps` returns `step i (<action>) failed: err` wrapping `err`;
the executor it leaves is the one after executing steps `1..i-1` once each in
order and then step `i`, whatever steps follow. -/
theorem ExecuteSteps_first_failure {σ : Type} (B : Browser σ) (pre : List Step)
    (step : Step) (post : List Step) (e : Executor σ) (err : GoError)
    (hpre : RunsClean B pre e)
    (hfail : (executeStep B step (stateAfter B pre e)).2 = some err) :
    ExecuteSteps B (pre ++ step :: post) e
      = ((executeStep B step (stateAfter B pre e)).1,
          some (GoError.stepFailed (pre.length + 1) step.Action err)) ∧
    (GoError.stepFailed (pre.length + 1) step.Action err).Error
      = "step ".toList ++ (toString (pre.length + 1)).toList ++ " (".toList ++ step.Action
          ++ ") failed: ".toList ++ err.Error ∧
    (GoError.stepFailed (pre.length + 1) step.Action err).Unwrap = some err := by
  refine ⟨?_, rfl, rfl⟩
  have := ExecuteStepsFrom_first_failure B pre step post 0 e err hpre hfail
  simpa [ExecuteSteps] using this

theorem ExecuteSteps_first_failure_witness :
    ExecuteSteps refusesB
        ([clickStep "#a".toList] ++ clickStep "#b".toList :: [clickStep "#c".toList])
        (newExecutor [])
      = ({ ctx := (0, [[Action.Click "#a".toList], [Action.Click "#b".toList]]),
           «variables» := [], config := [] },
          some (GoError.stepFailed 2 "click".toList (GoError.driver "refused".toList))) ∧
    (GoError.stepFailed 2 "click".toList (GoError.driver "refused".toList)).Error
      = "step 2 (click) failed: refused".toList :=
  ⟨(ExecuteSteps_first_failure refusesB [clickStep "#a".toList] (clickStep "#b".toList)
      [clickStep "#c".toList] (newExecutor []) (GoError.driver "refused".toList)
      ⟨by decide, trivial⟩ (by decide)).1,
    by decide⟩

/-! ## Dispatch -/

/-- C9: the engine is fail-open for unrecognised steps: a step whose action is
none of the seventeen recognised kinds returns no error and hands the executor
back as it was (browser session, configuration and variables), whatever its
other fields are and for every browser. -/
theorem executeStep_unsupported {σ : Type} (B : Browser σ) (step : Step) (e : Executor σ)
    (h : step.Action ∉ recognisedActions) : executeStep B step e = (e, none) := by
  cases step with
  | mk action url selector attr timeout varName script value fields forEach thenSteps
      elseSteps document duration base64 transform cfg opt snippet args iframe waitIdle =>
    simp only [recognisedActions, Step.Action, List.mem_cons, List.mem_singleton,
      List.not_mem_nil, or_false, not_or] at h
    obtain ⟨h1, h2, h3, h4, h5, h6, h7, h8, h9, h10, h11, h12, h13, h14, h15, h16, h17⟩ := h
    rw [executeStep]
    simp only [h1, h2, h3, h4, h5, h6, h7, h8, h9, h10, h11, h12, h13, h14, h15, h16, h17,
      if_false]

theorem executeStep_unsupported_witness :
    executeStep refusesB (Step.lit "bogus".toList [] [] [] [] [] []) (newExecutor [])
      = (newExecutor [], none) ∧
    executeStep refusesB
        (Step.lit "unsupportedAction".toList "u".toList "#s".toList "1".toList
          [clickStep "#a".toList] [clickStep "#b".toList] [clickStep "#c".toList])
        (newExecutor [("region".toList, "eu".toList)])
      = (newExecutor [("region".toList, "eu".toList)], none) :=
  ⟨executeStep_unsupported _ _ _ (by decide), executeStep_unsupported _ _ _ (by decide)⟩

/-- An `if` step is handled by `ifCondition`. -/
theorem executeStep_if {σ : Type} (B : Browser σ) (step : Step) (e : Executor σ)
    (h : step.Action = "if".toList) : executeStep B step e = ifCondition B step e := by
  cases step with
  | mk action url selector attr timeout varName script value fields forEach thenSteps
      elseSteps document duration base64 transform cfg opt snippet args iframe waitIdle =>
    simp only [Step.Action] at h
    subst h
    rw [executeStep]
    rfl

/-- An `extractAll` step is handled by `extractAll`. -/
theorem executeStep_extractAll {σ : Type} (B : Browser σ) (step : Step) (e : Executor σ)
    (h : step.Action = "extractAll".toList) : executeStep B step e = extractAll B step e := by
  cases step with
  | mk action url selector attr timeout varName script value fields forEach thenSteps
      elseSteps document duration base64 transform cfg opt snippet args iframe waitIdle =>
    simp only [Step.Action] at h
    subst h
    rw [executeStep]
    rfl

/-- A `checkURL` step is handled by `checkURL`. -/
theorem executeStep_checkURL {σ : Type} (B : Browser σ) (step : Step) (e : Executor σ)
    (h : step.Action = "checkURL".toList) : executeStep B step e = checkURL B step e := by
  cases step with
  | mk action url selector attr timeout varName script value fields forEach thenSteps
      elseSteps document duration base64 transform cfg opt snippet args iframe waitIdle =>
    simp only [Step.Action] at h
    subst h
    rw [executeStep]
    rfl

/-- C7: the `if` step selects its branch by the script result.  With `r` the
reply to the evaluation of the interpolated script: if `r` carries an error the
step fails with it and the executor only records the evaluation; if the result
is true and `then` is non-empty the outcome is that of `ExecuteSteps` on `then`;
if the result is false and `else` is non-empty the outcome is that of
`ExecuteSteps` on `else`; if the selected list is empty the step succeeds right
after the evaluation. -/
theorem if_selects_branch {σ : Type} (B : Browser σ) (step : Step) (e : Executor σ)
    (h : step.Action = "if".toList) :
    let r := B.run none [Action.EvaluateBool (e.interpolate step.Script)] e.ctx
    let e1 : Executor σ := { e with ctx := r.1 }
    (∀ err, r.2.err = some err → executeStep B step e = (e1, some err)) ∧
    (r.2.err = none → r.2.result = true → step.Then ≠ [] →
      executeStep B step e = ExecuteSteps B step.Then e1) ∧
    (r.2.err = none → r.2.result = false → step.Else ≠ [] →
      executeStep B step e = ExecuteSteps B step.Else e1) ∧
    (r.2.err = none → r.2.result = true → step.Then = [] →
      executeStep B step e = (e1, none)) ∧
    (r.2.err = none → r.2.result = false → step.Else = [] →
      executeStep B step e = (e1, none)) := by
  intro r e1
  rw [executeStep_if B step e h]
  refine ⟨?_, ?_, ?_, ?_, ?_⟩
  · intro err herr
    simp only [ifCondition]
    rw [show (B.run none [Action.EvaluateBool (e.interpolate step.Script)] e.ctx).2.err
      = some err from herr]
  · intro herr hres hne
    simp only [ifCondition]
    rw [show (B.run none [Action.EvaluateBool (e.interpolate step.Script)] e.ctx).2.err
      = none from herr]
    have hres2 : (B.run none [Action.EvaluateBool (e.interpolate step.Script)] e.ctx).2.result
      = true := hres
    have hlen : step.Then.length > 0 := List.length_pos.mpr hne
    simp [hres2, hlen, e1, r]
  · intro herr hres hne
    simp only [ifCondition]
    rw [show (B.run none [Action.EvaluateBool (e.interpolate step.Script)] e.ctx).2.err
      = none from herr]
    have hres2 : (B.run none [Action.EvaluateBool (e.interpolate step.Script)] e.ctx).2.result
      = false := hres
    have hlen : step.Else.length > 0 := List.length_pos.mpr hne
    simp [hres2, hlen, e1, r]
  · intro herr hres hnil
    simp only [ifCondition]
    rw [show (B.run none [Action.EvaluateBool (e.interpolate step.Script)] e.ctx).2.err
      = none from herr]
    have hres2 : (B.run none [Action.EvaluateBool (e.interpolate step.Script)] e.ctx).2.result
      = true := hres
    simp [hres2, hnil, e1, r]
  · intro herr hres hnil
    simp only [ifCondition]
    rw [show (B.run none [Action.EvaluateBool (e.interpolate step.Script)] e.ctx).2.err
      = none from herr]
    have hres2 : (B.run none [Action.EvaluateBool (e.interpolate step.Script)] e.ctx).2.result
      = false := hres
    simp [hres2, hnil, e1, r]

theorem if_selects_branch_witness :
    executeStep (answers true) ifStep (newExecutor [])
      = ({ ctx := (0, [[Action.EvaluateBool "ready".toList], [Action.Click "#a".toList]]),
           «variables» := [], config := [] }, none) ∧
    executeStep (answers false) ifStep (newExecutor [])
      = ({ ctx := (0, [[Action.EvaluateBool "ready".toList], [Action.Click "#b".toList]]),
           «variables» := [], config := [] }, none) :=
  ⟨(if_selects_branch (answers true) ifStep (newExecutor []) rfl).2.1 rfl rfl
      (by simp [ifStep, Step.lit, Step.Then]),
    (if_selects_branch (answers false) ifStep (newExecutor []) rfl).2.2.1 rfl rfl
      (by simp [ifStep, Step.lit, Step.Else])⟩

/-! ## URL matching -/

namespace strings

theorem splitScan_head_match (sep : Str) (c : Char) (cs : Str)
    (h : sep <+: c :: cs) : (splitScan sep 0 (c :: cs)).headD [] = [] := by
  simp [splitScan, h]

theorem splitScan_head_step (sep : Str) (c : Char) (cs : Str)
    (h : ¬ sep <+: c :: cs) :
    (splitScan sep 0 (c :: cs)).headD [] = c :: (splitScan sep 0 cs).headD [] := by
  rw [splitScan]
  simp only [List.isPrefixOf_iff_prefix, h, if_false]
  cases hs : splitScan sep 0 cs with
  | nil =>
    exfalso
    cases cs with
    | nil => simp [splitScan] at hs
    | cons d ds =>
      rw [splitScan] at hs
      split at hs
      · exact absurd hs (List.cons_ne_nil _ _)
      · split at hs <;> exact absurd hs (List.cons_ne_nil _ _)
  | cons p ps => rfl

theorem prefix_dropLast_append (a sep b : Str) :
    a ++ sep.dropLast <+: a ++ sep ++ b :=
  ((List.prefix_append_right_inj a).mpr (List.dropLast_prefix sep)).trans
    (List.prefix_append _ _)

/-- The first piece of a split is the text before the first occurrence of the
separator. -/
theorem splitScan_head (sep s : Str) (hne : sep ≠ []) (h : sep <:+: s) :
    ∃ p q, s = p ++ sep ++ q ∧ ¬ sep <:+: p ++ sep.dropLast ∧
      (splitScan sep 0 s).headD [] = p := by
  induction s with
  | nil =>
    exfalso
    exact hne (List.eq_nil_of_infix_nil h)
  | cons c cs ih =>
    by_cases hp : sep <+: c :: cs
    · obtain ⟨q, hq⟩ := hp
      refine ⟨[], q, by simpa using hq.symm, ?_, splitScan_head_match sep c cs ⟨q, hq⟩⟩
      intro hi
      have hl := hi.length_le
      have : 0 < sep.length := List.length_pos.mpr hne
      simp at hl
      omega
    · have hcs : sep <:+: cs := by
        rcases List.infix_cons_iff.mp h with h1 | h1
        · exact absurd h1 hp
        · exact h1
      obtain ⟨p, q, hs, hfirst, hhead⟩ := ih hcs
      refine ⟨c :: p, q, by simp [hs], ?_, ?_⟩
      · intro hi
        rcases List.infix_cons_iff.mp (by simpa using hi) with h1 | h1
        · apply hp
          refine h1.trans ?_
          rw [hs]
          exact (List.prefix_cons_inj c).mpr (prefix_dropLast_append p sep q)
        · exact hfirst h1
      · rw [splitScan_head_step sep c cs hp, hhead]

/-- The text before the first occurrence of a separator is determined by the
text. -/
theorem first_occurrence_unique (sep s p q p1 q1 : Str) (hne : sep ≠ [])
    (h : s = p ++ sep ++ q) (hp : ¬ sep <:+: p ++ sep.dropLast)
    (h1 : s = p1 ++ sep ++ q1) (hp1 : ¬ sep <:+: p1 ++ sep.dropLast) : p = p1 := by
  have hpos : 0 < sep.length := List.length_pos.mpr hne
  have key : ∀ (a b a1 b1 : Str), a ++ sep ++ b = a1 ++ sep ++ b1 →
      ¬ sep <:+: a1 ++ sep.dropLast → a1.length ≤ a.length := by
    intro a b a1 b1 heq hno
    by_contra hlt
    push_neg at hlt
    apply hno
    have hpre1 : a ++ sep <+: a1 ++ sep ++ b1 := by
      rw [← heq]
      exact List.prefix_append _ _
    have hpre2 : a1 ++ sep.dropLast <+: a1 ++ sep ++ b1 :=
      prefix_dropLast_append a1 sep b1
    have hle : (a ++ sep).length ≤ (a1 ++ sep.dropLast).length := by
      simp
      omega
    have hpre3 : a ++ sep <+: a1 ++ sep.dropLast :=
      List.prefix_of_prefix_length_le hpre1 hpre2 hle
    exact (List.suffix_append a sep).isInfix.trans hpre3.isInfix
  have hle1 := key p q p1 q1 (h.symm.trans h1) hp1
  have hle2 := key p1 q1 p q (h1.symm.trans h) hp
  have hlen : p.length = p1.length := le_antisymm hle2 hle1
  have heq : p ++ (sep ++ q) = p1 ++ (sep ++ q1) := by
    simpa using h.symm.trans h1
  exact (List.append_inj heq hlen).1

end strings

/-- The test made by `checkURL` and `waitForURL` decides the matching rule. -/
theorem URLMatchRule_iff (x c : Str) :
    URLMatchRule x c ↔
      (if strings.Contains x "**".toList then
        strings.HasPrefix c ((strings.Split x "**".toList).headD [])
       else strings.Contains c x) = true := by
  have hsplit : strings.Split x "**".toList = strings.splitScan "**".toList 0 x := by
    simp [strings.Split]
  have hne : "**".toList ≠ [] := by decide
  have hdl : "**".toList.dropLast = "*".toList := by decide
  by_cases hc : "**".toList <:+: x
  · have hcb : strings.Contains x "**".toList = true := (strings.Contains_iff _ _).mpr hc
    obtain ⟨p, q, hx, hfirst, hhead⟩ := strings.splitScan_head "**".toList x hne hc
    rw [hdl] at hfirst
    rw [hcb, if_pos rfl, hsplit, hhead, strings.HasPrefix_iff]
    constructor
    · rintro (⟨_, p1, q1, hx1, hfirst1, hpre⟩ | ⟨hno, _⟩)
      · have := strings.first_occurrence_unique "**".toList x p q p1 q1 hne hx
          (by rw [hdl]; exact hfirst) hx1 (by rw [hdl]; exact hfirst1)
        rw [this]
        exact hpre
      · exact absurd hc hno
    · intro hpre
      exact Or.inl ⟨hc, p, q, hx, hfirst, hpre⟩
  · have hcb : strings.Contains x "**".toList = false := by
      rw [← Bool.not_eq_true, strings.Contains_iff]
      exact hc
    rw [hcb]
    simp only [Bool.false_eq_true, if_false, strings.Contains_iff]
    constructor
    · rintro (⟨h1, _⟩ | ⟨_, h2⟩)
      · exact absurd h1 hc
      · exact h2
    · intro h2
      exact Or.inr ⟨hc, h2⟩

/-- C2: `checkURL` implements the URL matching rule.  When the browser reports
the current URL `c` without error and `x` is the interpolated expected URL,
`checkURL` returns no error exactly when the rule holds for `x` and `c`, and
otherwise returns the error `URL does not match: expected x, got c`; in both
cases the executor only records the request. -/
theorem checkURL_matching_rule {σ : Type} (B : Browser σ) (step : Step) (e : Executor σ)
    (herr : (B.run none [Action.Location] e.ctx).2.err = none) :
    let x := e.interpolate step.URL
    let c := (B.run none [Action.Location] e.ctx).2.location
    let e1 : Executor σ := { e with ctx := (B.run none [Action.Location] e.ctx).1 }
    ((checkURL B step e).2 = none ↔ URLMatchRule x c) ∧
    (URLMatchRule x c → checkURL B step e = (e1, none)) ∧
    (¬ URLMatchRule x c →
      checkURL B step e = (e1, some (GoError.urlDoesNotMatch x c))) ∧
    "URL does not match".toList <+: (GoError.urlDoesNotMatch x c).Error := by
  intro x c e1
  have hyes : URLMatchRule x c → checkURL B step e = (e1, none) := by
    intro hrule
    have hb := (URLMatchRule_iff x c).mp hrule
    simp only [checkURL, herr]
    by_cases hc : strings.Contains x "**".toList = true
    · rw [if_pos hc] at hb
      simp only [x] at hc
      simp only [hc, if_true]
      simp only [x, c] at hb
      rw [hb]
      rfl
    · rw [if_neg hc] at hb
      simp only [x] at hc
      simp only [hc, if_false]
      simp only [x, c] at hb
      rw [hb]
      rfl
  have hno : ¬ URLMatchRule x c →
      checkURL B step e = (e1, some (GoError.urlDoesNotMatch x c)) := by
    intro hrule
    have hb := (not_congr (URLMatchRule_iff x c)).mp hrule
    simp only [checkURL, herr]
    by_cases hc : strings.Contains x "**".toList = true
    · rw [if_pos hc] at hb
      simp only [x] at hc
      simp only [hc, if_true]
      simp only [x, c, Bool.not_eq_true] at hb
      rw [hb]
      rfl
    · rw [if_neg hc] at hb
      simp only [x] at hc
      simp only [hc, if_false]
      simp only [x, c, Bool.not_eq_true] at hb
      rw [hb]
      rfl
  refine ⟨?_, hyes, hno, ?_⟩
  · constructor
    · intro h
      by_contra hrule
      rw [hno hrule] at h
      exact absurd h (by simp)
    · intro hrule
      rw [hyes hrule]
  · exact List.prefix_append _ _

theorem checkURL_matching_rule_witness :
    checkURL (located "https://app.example.com/dashboard".toList)
        (checkURLStep "https://app.example.com/**".toList) (newExecutor [])
      = ({ ctx := (0, [[Action.Location]]), «variables» := [], config := [] }, none) ∧
    checkURL (located "https://other.com/dashboard".toList)
        (checkURLStep "https://app.example.com/**".toList) (newExecutor [])
      = ({ ctx := (0, [[Action.Location]]), «variables» := [], config := [] },
          some (GoError.urlDoesNotMatch "https://app.example.com/**".toList
            "https://other.com/dashboard".toList)) ∧
    checkURL (located "https://site.example.com/invoices?id=1".toList)
        (checkURLStep "example.com/invoices".toList) (newExecutor [])
      = ({ ctx := (0, [[Action.Location]]), «variables» := [], config := [] }, none) :=
  ⟨(checkURL_matching_rule (located "https://app.example.com/dashboard".toList)
      (checkURLStep "https://app.example.com/**".toList) (newExecutor []) rfl).2.1
      (Or.inl ⟨by decide, "https://app.example.com/".toList, [], by decide, by decide,
        by decide⟩),
    (checkURL_matching_rule (located "https://other.com/dashboard".toList)
      (checkURLStep "https://app.example.com/**".toList) (newExecutor []) rfl).2.2.1
      (fun h => absurd
        ((checkURL_matching_rule (located "https://other.com/dashboard".toList)
          (checkURLStep "https://app.example.com/**".toList) (newExecutor []) rfl).1.mpr h)
        (by decide)),
    (checkURL_matching_rule (located "https://site.example.com/invoices?id=1".toList)
      (checkURLStep "example.com/invoices".toList) (newExecutor []) rfl).2.1
      (Or.inr ⟨by decide, by decide⟩)⟩

/-! ## Phases of a run -/

theorem ExecuteSteps_of_length_zero {σ : Type} (B : Browser σ) (steps : List Step)
    (e : Executor σ) (h : ¬ steps.length > 0) : ExecuteSteps B steps e = (e, none) := by
  cases steps with
  | nil => exact ExecuteStepsFrom_nil B 0 e
  | cons s rest => simp at h

/-- C8: the phase policy of a run.  With `c` the outcome of `checkAuth`, `a`
the outcome of `startAuth` executed after it and `d` the outcome of
`getDocuments` executed after whichever of the two came last: in auth-only mode
the run ends normally right after `checkAuth`; otherwise a failed `checkAuth` is
followed by `startAuth`, a failed `startAuth` ends the run fatally before
`getDocuments`, and `getDocuments` ends the run, fatally when it fails. -/
theorem main_phase_policy {σ : Type} (B : Browser σ) (plugin : Plugin)
    (checkAuthOnly : Bool) (e : Executor σ) :
    let c := ExecuteSteps B plugin.CheckAuth e
    let a := ExecuteSteps B plugin.StartAuth c.1
    let d := ExecuteSteps B plugin.GetDocuments (if c.2.isSome then a.1 else c.1)
    (checkAuthOnly = true → main B plugin checkAuthOnly e = (c.1, Exit.completed)) ∧
    (checkAuthOnly = false → c.2.isSome → ∀ err, a.2 = some err →
      main B plugin checkAuthOnly e = (a.1, Exit.authenticationFailed err)) ∧
    (checkAuthOnly = false → (c.2 = none ∨ a.2 = none) → ∀ err, d.2 = some err →
      main B plugin checkAuthOnly e = (d.1, Exit.fetchFailed err)) ∧
    (checkAuthOnly = false → (c.2 = none ∨ a.2 = none) → d.2 = none →
      main B plugin checkAuthOnly e = (d.1, Exit.completed)) := by
  intro c a d
  have hc0 : ¬ plugin.CheckAuth.length > 0 → c = (e, none) := fun h =>
    ExecuteSteps_of_length_zero B _ e h
  have ha0 : ¬ plugin.StartAuth.length > 0 → a = (c.1, none) := fun h =>
    ExecuteSteps_of_length_zero B _ c.1 h
  have hd0 : ¬ plugin.GetDocuments.length > 0 →
      d = ((if c.2.isSome then a.1 else c.1), none) := fun h =>
    ExecuteSteps_of_length_zero B _ _ h
  -- the executor and the pending fatal exit after the authentication block
  have hauth : main B plugin checkAuthOnly e =
      (match (if c.2.isSome then (if checkAuthOnly then (c.1, none) else
                match a.2 with
                | some err => (a.1, some (Exit.authenticationFailed err))
                | none => (a.1, none))
              else (c.1, (none : Option Exit))) with
        | (e2, some fatal) => (e2, fatal)
        | (e2, none) =>
          if checkAuthOnly then (e2, Exit.completed)
          else match ExecuteSteps B plugin.GetDocuments e2 with
            | (e3, some err) => (e3, Exit.fetchFailed err)
            | (e3, none) => (e3, Exit.completed)) := by
    unfold main
    by_cases h1 : plugin.CheckAuth.length > 0
    · simp only [h1, if_true]
      rcases hc : ExecuteSteps B plugin.CheckAuth e with ⟨e1, _ | err1⟩
      · have hc' : c = (e1, none) := hc
        simp only [hc', Option.isSome_none, Bool.false_eq_true, if_false]
        cases checkAuthOnly
        · simp only [Bool.false_eq_true, if_false]
          by_cases h3 : plugin.GetDocuments.length > 0
          · simp only [h3, if_true]
          · simp only [h3, if_false, ExecuteSteps_of_length_zero B _ e1 h3]
        · simp only [if_true]
      · have hc' : c = (e1, some err1) := hc
        cases checkAuthOnly
        · simp only [hc', Option.isSome_some, if_true, Bool.not_false, Bool.false_eq_true,
            if_false]
          by_cases h2 : plugin.StartAuth.length > 0
          · simp only [h2, if_true]
            have ha' : a = ExecuteSteps B plugin.StartAuth e1 := by
              simp only [a, hc']
            rcases hA : ExecuteSteps B plugin.StartAuth e1 with ⟨e2, _ | err2⟩
            · rw [hA] at ha'
              simp only [ha']
              by_cases h3 : plugin.GetDocuments.length > 0
              · simp only [h3, if_true]
              · simp only [h3, if_false, ExecuteSteps_of_length_zero B _ e2 h3]
            · rw [hA] at ha'
              simp only [ha']
          · have ha' := ha0 h2
            rw [hc'] at ha'
            simp only [h2, if_false, ha']
            by_cases h3 : plugin.GetDocuments.length > 0
            · simp only [h3, if_true]
            · simp only [h3, if_false, ExecuteSteps_of_length_zero B _ e1 h3]
        · simp only [hc', Option.isSome_some, if_true, Bool.not_true, Bool.false_eq_true,
            if_false]
    · have hc' := hc0 h1
      simp only [h1, if_false, hc', Option.isSome_none, Bool.false_eq_true]
      cases checkAuthOnly
      · simp only [Bool.false_eq_true, if_false]
        by_cases h3 : plugin.GetDocuments.length > 0
        · simp only [h3, if_true]
        · simp only [h3, if_false, ExecuteSteps_of_length_zero B _ e h3]
      · simp only [if_true]
  refine ⟨?_, ?_, ?_, ?_⟩
  · intro hflag
    rw [hauth, hflag]
    cases hcs : c.2.isSome <;> simp
  · intro hflag hcs err ha
    rw [hauth, hflag, hcs, ha]
    simp
  · intro hflag hor err hd
    rw [hauth, hflag]
    cases hcs : c.2.isSome
    · have hd' : (ExecuteSteps B plugin.GetDocuments c.1).2 = some err := by
        simpa [d, hcs] using hd
      rcases hD : ExecuteSteps B plugin.GetDocuments c.1 with ⟨e3, r3⟩
      rw [hD] at hd'
      simp only at hd'
      subst hd'
      simp [d, hcs, hD]
    · have ha : a.2 = none := by
        rcases hor with h | h
        · rw [h] at hcs
          simp at hcs
        · exact h
      have hd' : (ExecuteSteps B plugin.GetDocuments a.1).2 = some err := by
        simpa [d, hcs] using hd
      rcases hD : ExecuteSteps B plugin.GetDocuments a.1 with ⟨e3, r3⟩
      rw [hD] at hd'
      simp only at hd'
      subst hd'
      simp [d, hcs, hD, ha]
  · intro hflag hor hd
    rw [hauth, hflag]
    cases hcs : c.2.isSome
    · have hd' : (ExecuteSteps B plugin.GetDocuments c.1).2 = none := by
        simpa [d, hcs] using hd
      rcases hD : ExecuteSteps B plugin.GetDocuments c.1 with ⟨e3, r3⟩
      rw [hD] at hd'
      simp only at hd'
      subst hd'
      simp [d, hcs, hD]
    · have ha : a.2 = none := by
        rcases hor with h | h
        · rw [h] at hcs
          simp at hcs
        · exact h
      have hd' : (ExecuteSteps B plugin.GetDocuments a.1).2 = none := by
        simpa [d, hcs] using hd
      rcases hD : ExecuteSteps B plugin.GetDocuments a.1 with ⟨e3, r3⟩
      rw [hD] at hd'
      simp only at hd'
      subst hd'
      simp [d, hcs, hD, ha]

theorem main_phase_policy_witness :
    main (located "https://app.example.com/dashboard".toList) loginPlugin false (newExecutor [])
      = ({ ctx := (0, [[Action.Location], [Action.Click "#a".toList],
              [Action.Click "#c".toList]]),
           «variables» := [], config := [] }, Exit.completed) ∧
    main (located "https://app.example.com/dashboard".toList) loginPlugin true (newExecutor [])
      = ({ ctx := (0, [[Action.Location]]), «variables» := [], config := [] },
          Exit.completed) :=
  ⟨(main_phase_policy (located "https://app.example.com/dashboard".toList) loginPlugin false
      (newExecutor [])).2.2.2 rfl (Or.inr (by decide)) (by decide),
    (main_phase_policy (located "https://app.example.com/dashboard".toList) loginPlugin true
      (newExecutor [])).1 rfl⟩

/-! ## Interpolation and the visiting order of the keys -/

namespace strings

theorem replaceScan_cons_other (m new : Str) (c : Char) (s : Str) (hc : c ≠ '{') :
    replaceScan (placeholder m) new 0 (c :: s) = c :: replaceScan (placeholder m) new 0 s := by
  have h : ¬ placeholder m <+: c :: s := by
    intro hp
    have e2 : placeholder m = '{' :: '{' :: (m ++ "\x7d\x7d".toList) := by simp [placeholder]
    rw [e2] at hp
    exact hc (List.cons_prefix_cons.mp hp).1.symm
  simp [replaceScan, h]

theorem replaceScan_literal (m new t rest : Str) (ht : '{' ∉ t) :
    replaceScan (placeholder m) new 0 (t ++ rest)
      = t ++ replaceScan (placeholder m) new 0 rest := by
  induction t with
  | nil => rfl
  | cons c t ih =>
    have hc : c ≠ '{' := fun h => ht (by simp [h])
    have ht2 : '{' ∉ t := fun h => ht (List.mem_cons_of_mem _ h)
    rw [List.cons_append, replaceScan_cons_other m new c _ hc, ih ht2]
    rfl

theorem replaceScan_match (old new rest : Str) (hne : old ≠ []) :
    replaceScan old new 0 (old ++ rest) = new ++ replaceScan old new 0 rest := by
  cases old with
  | nil => exact absurd rfl hne
  | cons c cs =>
    have hp : (c :: cs) <+: c :: (cs ++ rest) := List.prefix_append _ _
    rw [List.cons_append, replaceScan]
    simp only [List.isPrefixOf_iff_prefix, hp, if_true]
    rw [replaceScan_skip]
    simp

theorem replaceScan_other_placeholder (m n new rest : Str) (hn : BraceFree n) (hm : '}' ∉ m)
    (hne : n ≠ m) :
    replaceScan (placeholder m) new 0 (placeholder n ++ rest)
      = placeholder n ++ replaceScan (placeholder m) new 0 rest := by
  have e1 : placeholder n ++ rest = '{' :: '{' :: (n ++ ('}' :: '}' :: rest)) := by
    simp [placeholder]
  have e2 : placeholder m = '{' :: '{' :: (m ++ "\x7d\x7d".toList) := by simp [placeholder]
  have e3 : placeholder n ++ replaceScan (placeholder m) new 0 rest
      = '{' :: '{' :: (n ++ ('}' :: '}' :: replaceScan (placeholder m) new 0 rest)) := by
    simp [placeholder]
  have h1 : ¬ placeholder m <+: '{' :: '{' :: (n ++ ('}' :: '}' :: rest)) := by
    intro hp
    rw [e2] at hp
    have hp2 := (List.cons_prefix_cons.mp (List.cons_prefix_cons.mp hp).2).2
    have : n ++ ('}' :: '}' :: rest) = n ++ "\x7d\x7d".toList ++ rest := by simp
    rw [this] at hp2
    exact hne (closing_braces m n rest hn.2 hm hp2).symm
  have h2 : ¬ placeholder m <+: '{' :: (n ++ ('}' :: '}' :: rest)) := by
    intro hp
    rw [e2] at hp
    have hp2 := (List.cons_prefix_cons.mp hp).2
    cases n with
    | nil =>
      have hp3 : '{' :: (m ++ "\x7d\x7d".toList) <+: '}' :: '}' :: rest := hp2
      exact absurd (List.cons_prefix_cons.mp hp3).1 (by decide)
    | cons c n =>
      have hp3 : '{' :: (m ++ "\x7d\x7d".toList) <+: c :: (n ++ '}' :: '}' :: rest) := hp2
      have := (List.cons_prefix_cons.mp hp3).1
      exact hn.1 (by simp [← this])
  rw [e1, e3, replaceScan]
  simp only [List.isPrefixOf_iff_prefix, h1, if_false]
  rw [replaceScan]
  simp only [List.isPrefixOf_iff_prefix, h2, if_false]
  rw [replaceScan_literal m new n _ hn.1,
    replaceScan_cons_other m new '}' _ (by decide),
    replaceScan_cons_other m new '}' _ (by decide)]

end strings

/-- Replacing the placeholder of `m` in a plain template fills the holes named
`m` and touches nothing else. -/
theorem ReplaceAll_renderPieces (ps : List Piece) (m v : Str) (hm : '}' ∉ m)
    (hps : ∀ p ∈ ps, p.Plain) :
    strings.ReplaceAll (renderPieces ps) (placeholder m) v
      = renderPieces (ps.map (Piece.fill m v)) := by
  have hscan : strings.ReplaceAll (renderPieces ps) (placeholder m) v
      = strings.replaceScan (placeholder m) v 0 (renderPieces ps) := by
    simp [strings.ReplaceAll, placeholder_ne_nil]
  rw [hscan]
  clear hscan
  induction ps with
  | nil => simp [renderPieces, strings.replaceScan]
  | cons p ps ih =>
    have hp : p.Plain := hps p (List.mem_cons_self _ _)
    have ih2 := ih (fun q hq => hps q (List.mem_cons_of_mem _ hq))
    cases p with
    | lit t =>
      simp only [renderPieces, Piece.render, List.map_cons, Piece.fill]
      rw [strings.replaceScan_literal m v t _ hp.1, ih2]
    | hole n =>
      by_cases hnm : n = m
      · subst hnm
        simp only [renderPieces, Piece.render, List.map_cons, Piece.fill, if_true]
        rw [strings.replaceScan_match _ v _ (placeholder_ne_nil n), ih2]
      · simp only [renderPieces, Piece.render, List.map_cons, Piece.fill, hnm, if_false]
        rw [strings.replaceScan_other_placeholder m n v _ hp hm hnm, ih2]

theorem Piece.fill_plain (m v : Str) (hv : BraceFree v) (p : Piece) (hp : p.Plain) :
    (p.fill m v).Plain := by
  cases p with
  | lit t => exact hp
  | hole n =>
    simp only [Piece.fill]
    split
    · exact hv
    · exact hp

theorem Piece.fill_comm (m1 v1 m2 v2 : Str) (h : m1 ≠ m2) (p : Piece) :
    (p.fill m1 v1).fill m2 v2 = (p.fill m2 v2).fill m1 v1 := by
  cases p with
  | lit t => rfl
  | hole n =>
    by_cases h1 : n = m1
    · subst h1
      simp [Piece.fill, h]
    · by_cases h2 : n = m2
      · subst h2
        simp [Piece.fill, h1]
      · simp [Piece.fill, h1, h2]

theorem fill_map_plain (m v : Str) (hv : BraceFree v) (ps : List Piece)
    (hps : ∀ p ∈ ps, p.Plain) : ∀ p ∈ ps.map (Piece.fill m v), p.Plain := by
  intro p hp
  obtain ⟨q, hq, rfl⟩ := List.mem_map.mp hp
  exact Piece.fill_plain m v hv q (hps q hq)

theorem braceFree_config_name (k : Str) (hk : BraceFree k) :
    '}' ∉ "config.".toList ++ k := by
  simp only [List.mem_append, not_or]
  exact ⟨by decide, hk.2⟩

/-- The configuration pass on a plain template, piece by piece. -/
theorem configPass_renderPieces (config : List (Str × Str)) (ps : List Piece)
    (hps : ∀ p ∈ ps, p.Plain) (hcb : ∀ kv ∈ config, BraceFree kv.1 ∧ BraceFree kv.2) :
    config.foldl
        (fun result kv =>
          strings.ReplaceAll result ("\x7b\x7bconfig.".toList ++ kv.1 ++ "\x7d\x7d".toList) kv.2)
        (renderPieces ps)
      = renderPieces (fillConfig config ps) ∧
    ∀ p ∈ fillConfig config ps, p.Plain := by
  induction config generalizing ps with
  | nil => exact ⟨rfl, hps⟩
  | cons kv config ih =>
    have hkv := hcb kv (List.mem_cons_self _ _)
    have hrest : ∀ x ∈ config, BraceFree x.1 ∧ BraceFree x.2 := fun x hx =>
      hcb x (List.mem_cons_of_mem _ hx)
    have hstep := ReplaceAll_renderPieces ps ("config.".toList ++ kv.1) kv.2
      (braceFree_config_name kv.1 hkv.1) hps
    have hplain := fill_map_plain ("config.".toList ++ kv.1) kv.2 hkv.2 ps hps
    have := ih (ps.map (Piece.fill ("config.".toList ++ kv.1) kv.2)) hplain hrest
    simp only [List.foldl_cons, fillConfig]
    rw [configPattern_eq, hstep]
    exact this

/-- The variables pass on a plain template, piece by piece. -/
theorem variablesPass_renderPieces (vars : List (Str × Value)) (ps : List Piece)
    (hps : ∀ p ∈ ps, p.Plain) (hvb : ∀ kv ∈ vars, BraceFree kv.1 ∧ BraceFree kv.2.format) :
    vars.foldl
        (fun result kv =>
          strings.ReplaceAll result ("\x7b\x7b".toList ++ kv.1 ++ "\x7d\x7d".toList) kv.2.format)
        (renderPieces ps)
      = renderPieces (fillVariables vars ps) := by
  induction vars generalizing ps with
  | nil => rfl
  | cons kv vars ih =>
    have hkv := hvb kv (List.mem_cons_self _ _)
    have hrest : ∀ x ∈ vars, BraceFree x.1 ∧ BraceFree x.2.format := fun x hx =>
      hvb x (List.mem_cons_of_mem _ hx)
    have hstep := ReplaceAll_renderPieces ps kv.1 kv.2.format hkv.1.2 hps
    have hplain := fill_map_plain kv.1 kv.2.format hkv.2 ps hps
    have := ih (ps.map (Piece.fill kv.1 kv.2.format)) hplain hrest
    simp only [List.foldl_cons, fillVariables]
    have hpat : "\x7b\x7b".toList ++ kv.1 ++ "\x7d\x7d".toList = placeholder kv.1 := rfl
    rw [hpat, hstep]
    exact this

/-- On a plain template, with brace-free keys and values, `interpolate` fills
the pieces. -/
theorem interpolate_renderPieces {σ : Type} (e : Executor σ) (ps : List Piece)
    (hps : ∀ p ∈ ps, p.Plain)
    (hcb : ∀ kv ∈ e.config, BraceFree kv.1 ∧ BraceFree kv.2)
    (hvb : ∀ kv ∈ e.variables, BraceFree kv.1 ∧ BraceFree kv.2.format) :
    e.interpolate (renderPieces ps)
      = renderPieces (fillVariables e.variables (fillConfig e.config ps)) := by
  obtain ⟨h1, h2⟩ := configPass_renderPieces e.config ps hps hcb
  unfold Executor.interpolate
  simp only [h1]
  exact variablesPass_renderPieces e.variables _ h2 hvb

theorem fillConfig_perm (c1 c2 : List (Str × Str)) (ps : List Piece) (h : c1.Perm c2)
    (hk : (c1.map Prod.fst).Nodup) : fillConfig c1 ps = fillConfig c2 ps := by
  unfold fillConfig
  apply List.Perm.foldl_eq' h
  intro x hx y hy z
  by_cases hxy : x = y
  · rw [hxy]
  · have hkeys : x.1 ≠ y.1 := fun hk1 => hxy (List.inj_on_of_nodup_map hk hx hy hk1)
    have hnames : "config.".toList ++ x.1 ≠ "config.".toList ++ y.1 := fun hn =>
      hkeys (List.append_cancel_left hn)
    simp only [List.map_map]
    apply List.map_congr_left
    intro p _
    exact Piece.fill_comm _ _ _ _ hnames p

theorem fillVariables_perm (v1 v2 : List (Str × Value)) (ps : List Piece) (h : v1.Perm v2)
    (hk : (v1.map Prod.fst).Nodup) : fillVariables v1 ps = fillVariables v2 ps := by
  unfold fillVariables
  apply List.Perm.foldl_eq' h
  intro x hx y hy z
  by_cases hxy : x = y
  · rw [hxy]
  · have hkeys : x.1 ≠ y.1 := fun hk1 => hxy (List.inj_on_of_nodup_map hk hx hy hk1)
    simp only [List.map_map]
    apply List.map_congr_left
    intro p _
    exact Piece.fill_comm _ _ _ _ hkeys p

/-- C3, as the code has it: `interpolate` is a total function of the text and
of the two maps taken in the order in which their keys are visited.  Its
result does not depend on that order when the text is made of brace-free
literal text and of placeholders with brace-free names, and every key and
every value (as rendered) of the two maps is brace-free. -/
theorem interpolate_order_independent {σ : Type} (e1 e2 : Executor σ) (ps : List Piece)
    (hps : ∀ p ∈ ps, p.Plain)
    (hcb : ∀ kv ∈ e1.config, BraceFree kv.1 ∧ BraceFree kv.2)
    (hvb : ∀ kv ∈ e1.variables, BraceFree kv.1 ∧ BraceFree kv.2.format)
    (hck : (e1.config.map Prod.fst).Nodup) (hvk : (e1.variables.map Prod.fst).Nodup)
    (hc : e1.config.Perm e2.config) (hv : e1.variables.Perm e2.variables) :
    e1.interpolate (renderPieces ps) = e2.interpolate (renderPieces ps) := by
  have hcb2 : ∀ kv ∈ e2.config, BraceFree kv.1 ∧ BraceFree kv.2 := fun kv hkv =>
    hcb kv (hc.symm.subset hkv)
  have hvb2 : ∀ kv ∈ e2.variables, BraceFree kv.1 ∧ BraceFree kv.2.format := fun kv hkv =>
    hvb kv (hv.symm.subset hkv)
  rw [interpolate_renderPieces e1 ps hps hcb hvb, interpolate_renderPieces e2 ps hps hcb2 hvb2,
    fillConfig_perm e1.config e2.config ps hc hck,
    fillVariables_perm e1.variables e2.variables _ hv hvk]

theorem interpolate_order_independent_witness :
    (Executor.mk ()
        [("invoice".toList, Value.str "INV-001".toList), ("page".toList, Value.int 2)]
        [("region".toList, "eu".toList), ("teamId".toList, "12345".toList)]).interpolate
      "https://\x7b\x7bconfig.region\x7d\x7d.example.com/\x7b\x7binvoice\x7d\x7d".toList
    = (Executor.mk ()
        [("page".toList, Value.int 2), ("invoice".toList, Value.str "INV-001".toList)]
        [("teamId".toList, "12345".toList), ("region".toList, "eu".toList)]).interpolate
      "https://\x7b\x7bconfig.region\x7d\x7d.example.com/\x7b\x7binvoice\x7d\x7d".toList :=
  interpolate_order_independent _ _
    [Piece.lit "https://".toList, Piece.hole "config.region".toList,
      Piece.lit ".example.com/".toList, Piece.hole "invoice".toList]
    (by decide) (by decide) (by decide) (by decide) (by decide)
    (List.Perm.swap _ _ _) (List.Perm.swap _ _ _)

/-- C3 fails as stated: the result of `interpolate` depends on the order in
which the configuration keys are visited.  With the keys `b -> X` and
`aXc -> Y`, the text `{{config.a{{config.b}}c}}` becomes `Y` when `b` is visited
first and `{{config.aXc}}` when `aXc` is visited first; with `a -> {{config.b}}`
and `b -> x`, the text `{{config.a}}` becomes `x` or `{{config.b}}`; with the
keys `u -> A` and `u}}{{config.w -> Z`, the text `{{config.u}}{{config.w}}`
becomes `A{{config.w}}` or `Z`. -/
theorem interpolate_order_dependent :
    List.Perm [("b".toList, "X".toList), ("aXc".toList, "Y".toList)]
      [("aXc".toList, "Y".toList), ("b".toList, "X".toList)] ∧
    (Executor.mk () [] [("b".toList, "X".toList), ("aXc".toList, "Y".toList)]).interpolate
        "\x7b\x7bconfig.a\x7b\x7bconfig.b\x7d\x7dc\x7d\x7d".toList = "Y".toList ∧
    (Executor.mk () [] [("aXc".toList, "Y".toList), ("b".toList, "X".toList)]).interpolate
        "\x7b\x7bconfig.a\x7b\x7bconfig.b\x7d\x7dc\x7d\x7d".toList
      = "\x7b\x7bconfig.aXc\x7d\x7d".toList ∧
    (Executor.mk () [] [("a".toList, "\x7b\x7bconfig.b\x7d\x7d".toList),
        ("b".toList, "x".toList)]).interpolate "\x7b\x7bconfig.a\x7d\x7d".toList
      = "x".toList ∧
    (Executor.mk () [] [("b".toList, "x".toList),
        ("a".toList, "\x7b\x7bconfig.b\x7d\x7d".toList)]).interpolate
        "\x7b\x7bconfig.a\x7d\x7d".toList
      = "\x7b\x7bconfig.b\x7d\x7d".toList ∧
    (Executor.mk () [] [("u".toList, "A".toList),
        ("u\x7d\x7d\x7b\x7bconfig.w".toList, "Z".toList)]).interpolate
        "\x7b\x7bconfig.u\x7d\x7d\x7b\x7bconfig.w\x7d\x7d".toList
      = "A\x7b\x7bconfig.w\x7d\x7d".toList ∧
    (Executor.mk () [] [("u\x7d\x7d\x7b\x7bconfig.w".toList, "Z".toList),
        ("u".toList, "A".toList)]).interpolate
        "\x7b\x7bconfig.u\x7d\x7d\x7b\x7bconfig.w\x7d\x7d".toList
      = "Z".toList :=
  ⟨List.Perm.swap _ _ _, by decide, by decide, by decide, by decide, by decide, by decide⟩

/-! ## The execution context across a run -/

theorem SameContext.refl {σ : Type} (e : Executor σ) : SameContext e e :=
  ⟨rfl, rfl⟩

theorem SameContext.trans {σ : Type} {e e1 e2 : Executor σ} (h1 : SameContext e e1)
    (h2 : SameContext e1 e2) : SameContext e e2 :=
  ⟨h2.1.trans h1.1, h2.2.trans h1.2⟩

theorem SameContext.session {σ : Type} (e : Executor σ) (s : σ) :
    SameContext e { e with ctx := s } :=
  ⟨rfl, rfl⟩

section Frame

variable {σ : Type} (B : Browser σ)

theorem navigate_context (step : Step) (e : Executor σ) :
    SameContext e (navigate B step e).1 :=
  SameContext.session e _

theorem waitForElement_context (step : Step) (e : Executor σ) :
    SameContext e (waitForElement B step e).1 :=
  SameContext.session e _

theorem waitForURL_context (step : Step) (e : Executor σ) :
    SameContext e (waitForURL B step e).1 :=
  SameContext.session e _

theorem waitForNavigation_context (step : Step) (e : Executor σ) :
    SameContext e (waitForNavigation B step e).1 :=
  SameContext.session e _

theorem waitForNetworkIdle_context (step : Step) (e : Executor σ) :
    SameContext e (waitForNetworkIdle B step e).1 :=
  SameContext.session e _

theorem checkElementExists_context (step : Step) (e : Executor σ) :
    SameContext e (checkElementExists B step e).1 := by
  unfold checkElementExists
  simp only
  split <;> exact SameContext.session e _

theorem checkURL_context (step : Step) (e : Executor σ) :
    SameContext e (checkURL B step e).1 := by
  unfold checkURL
  simp only
  split
  · exact SameContext.session e _
  · split
    · split <;> exact SameContext.session e _
    · split <;> exact SameContext.session e _

theorem click_context (step : Step) (e : Executor σ) :
    SameContext e (click B step e).1 :=
  SameContext.session e _

theorem typeText_context (step : Step) (e : Executor σ) :
    SameContext e (typeText B step e).1 :=
  SameContext.session e _

theorem dropdownSelect_context (step : Step) (e : Executor σ) :
    SameContext e (dropdownSelect B step e).1 :=
  SameContext.session e _

theorem printPdf_context (step : Step) (e : Executor σ) :
    SameContext e (printPdf B step e).1 := by
  unfold printPdf
  simp only
  split <;> exact SameContext.session e _

theorem sleep_context (step : Step) (e : Executor σ) :
    SameContext e (sleep B step e).1 :=
  SameContext.session e _

theorem runJs_context (step : Step) (e : Executor σ) :
    SameContext e (runJs B step e).1 :=
  SameContext.session e _

end Frame

mutual

/-- The loop of `ExecuteSteps` hands back the configuration and the variables
it was given, whether it ends with an error or not. -/
theorem ExecuteStepsFrom_context {σ : Type} (B : Browser σ) (i : Nat) :
    ∀ (steps : List Step) (e : Executor σ), SameContext e (ExecuteStepsFrom B i steps e).1
  | [], e => by
    rw [ExecuteStepsFrom]
    exact SameContext.refl e
  | step :: rest, e => by
    have h1 := executeStep_context B step e
    rw [ExecuteStepsFrom]
    rcases hr : executeStep B step e with ⟨e1, _ | err⟩
    · rw [hr] at h1
      exact h1.trans (ExecuteStepsFrom_context B (i + 1) rest e1)
    · rw [hr] at h1
      exact h1

/-- A single step hands back the configuration and the variables it was
given. -/
theorem executeStep_context {σ : Type} (B : Browser σ) :
    ∀ (step : Step) (e : Executor σ), SameContext e (executeStep B step e).1
  | .mk action url selector attr timeout varName script value fields
      forEach thenSteps elseSteps document duration base64 transform cfg opt
      snippet args iframe waitIdle, e => by
    have hFor := ExecuteStepsFrom_context B 0 forEach e
    have hThen := fun e1 : Executor σ => ExecuteStepsFrom_context B 0 thenSteps e1
    have hElse := fun e1 : Executor σ => ExecuteStepsFrom_context B 0 elseSteps e1
    rw [executeStep]
    by_cases h1 : action = "navigate".toList
    · rw [if_pos h1]
      exact navigate_context B _ e
    rw [if_neg h1]
    by_cases h2 : action = "waitForElement".toList
    · rw [if_pos h2]
      exact waitForElement_context B _ e
    rw [if_neg h2]
    by_cases h3 : action = "waitForURL".toList
    · rw [if_pos h3]
      exact waitForURL_context B _ e
    rw [if_neg h3]
    by_cases h4 : action = "waitForNavigation".toList
    · rw [if_pos h4]
      exact waitForNavigation_context B _ e
    rw [if_neg h4]
    by_cases h5 : action = "waitForNetworkIdle".toList
    · rw [if_pos h5]
      exact waitForNetworkIdle_context B _ e
    rw [if_neg h5]
    by_cases h6 : action = "checkElementExists".toList
    · rw [if_pos h6]
      exact checkElementExists_context B _ e
    rw [if_neg h6]
    by_cases h7 : action = "checkURL".toList
    · rw [if_pos h7]
      exact checkURL_context B _ e
    rw [if_neg h7]
    by_cases h8 : action = "click".toList
    · rw [if_pos h8]
      exact click_context B _ e
    rw [if_neg h8]
    by_cases h9 : action = "type".toList
    · rw [if_pos h9]
      exact typeText_context B _ e
    rw [if_neg h9]
    by_cases h10 : action = "dropdownSelect".toList
    · rw [if_pos h10]
      exact dropdownSelect_context B _ e
    rw [if_neg h10]
    by_cases h11 : action = "extract".toList
    · rw [if_pos h11]
      exact SameContext.refl e
    rw [if_neg h11]
    by_cases h12 : action = "extractAll".toList
    · rw [if_pos h12]
      split
      · exact hFor
      · exact SameContext.refl e
    rw [if_neg h12]
    by_cases h13 : action = "downloadPdf".toList
    · rw [if_pos h13]
      exact SameContext.refl e
    rw [if_neg h13]
    by_cases h14 : action = "printPdf".toList
    · rw [if_pos h14]
      exact printPdf_context B _ e
    rw [if_neg h14]
    by_cases h15 : action = "sleep".toList
    · rw [if_pos h15]
      exact sleep_context B _ e
    rw [if_neg h15]
    by_cases h16 : action = "runJs".toList
    · rw [if_pos h16]
      exact runJs_context B _ e
    rw [if_neg h16]
    by_cases h17 : action = "if".toList
    · rw [if_pos h17]
      dsimp only
      split
      · exact SameContext.session e _
      · split
        · exact (SameContext.session e _).trans (hThen _)
        · split
          · exact (SameContext.session e _).trans (hElse _)
          · exact SameContext.session e _
    rw [if_neg h17]
    exact SameContext.refl e

end

/-- C11: the execution-context invariant.  For every step list, nested to any
depth through `then`, `else` and `forEach`, every browser and every initial
executor, the executor that `ExecuteSteps` leaves behind, with or without an
error, has the initial configuration, and every key of the initial variables is
still a key of its variables. -/
theorem ExecuteSteps_context_invariant {σ : Type} (B : Browser σ) (steps : List Step)
    (e : Executor σ) :
    (ExecuteSteps B steps e).1.config = e.config ∧
    ∀ key ∈ e.variables.map Prod.fst,
      key ∈ (ExecuteSteps B steps e).1.variables.map Prod.fst := by
  have h := ExecuteStepsFrom_context B 0 steps e
  refine ⟨h.1, ?_⟩
  intro key hkey
  have hv : (ExecuteSteps B steps e).1.variables = e.variables := h.2
  rw [hv]
  exact hkey

end InvoiceRadar
